import Mathlib

/-!
# Verification of the orthtree subdivision engine

This file gives a shallow embedding, in Lean 4, of the orthtree (quadtree /
octree / general `2^D`-tree) data structure of
`src/Orthtree/include/CGAL/Orthtree.h` and its traversal strategies in
`src/Orthtree/include/CGAL/Orthtree/Traversals.h`, and proves or refutes the
behavioural claims of the specification.

Modelling conventions:

* The node store (`Property_container` arrays `m_node_depths`,
  `m_node_coordinates`, `m_node_parents`, `m_node_children`) becomes a record
  of lists indexed by `Node_index = Nat`.  Node contents (`m_node_contents`)
  are an opaque caller payload distributed by a traits callback; no claim
  depends on them, so they are not modelled.
* Machine integers are modelled as `Nat` with explicit truncation:
  the per-node depth is stored in a `std::uint8_t` (so `% 256` on write),
  each global coordinate in a `std::uint32_t` (so `% 2^32` on write), and the
  conversions `int(...)` of `uint32` values that the bounding-box and
  barycenter code performs are modelled by `toInt32`.
* The number type `FT` of the traits is instantiated with `ℚ`.  Because the
  `Rat` arithmetic of the ambient library is `@[irreducible]`, the model
  computes with explicitly reducible wrappers `qadd`, `qsub`, `qmul`, `qdiv`,
  `qofInt`, `qlt`, proved equal to the ordinary field operations below, so
  that concrete runs of the model evaluate inside the kernel.
* Functions that recurse along parent chains or queues take explicit fuel;
  the operations of the tree supply `size` (the node count) as fuel, which
  the well-formedness invariant `WF` shows to be sufficient.
* The fatal precondition checks (`CGAL_precondition`) of `split` are modelled
  by `Option`/`RunResult` results: `none`/`violation` marks an execution that
  trips an assertion in a debug build (undefined behaviour in release).
-/

namespace OrthtreeSpec

/-! ## Reducible rational arithmetic

`Rat.add`, `Rat.mul`, `Rat.sub` and `Rat.inv` are `@[irreducible]` in the
ambient library.  The embedding computes with the following wrappers, defined
through `Rat.divInt` on numerators and denominators, and the lemmas
`qadd_eq`, `qsub_eq`, `qmul_eq`, `qdiv_eq`, `qofInt_eq`, `qlt_iff` identify
them with the ordinary field operations on `ℚ`. -/

def qadd (a b : ℚ) : ℚ := Rat.divInt (a.num * b.den + b.num * a.den) (a.den * b.den)

def qsub (a b : ℚ) : ℚ := Rat.divInt (a.num * b.den - b.num * a.den) (a.den * b.den)

def qmul (a b : ℚ) : ℚ := Rat.divInt (a.num * b.num) (a.den * b.den)

/-- Division of rationals (`qdiv a 0 = 0`, as for field division). -/
def qdiv (a b : ℚ) : ℚ := Rat.divInt (a.num * b.den) (a.den * b.num)

def qofInt (z : Int) : ℚ := Rat.divInt z 1

def qlt (a b : ℚ) : Bool := Rat.blt a b

theorem num_eq_mul_den (a : ℚ) : (a.num : ℚ) = a * a.den := by
  have ha : (a.den : ℚ) ≠ 0 := by exact_mod_cast a.den_nz
  exact (div_eq_iff ha).mp (Rat.num_div_den a)

theorem qadd_eq (a b : ℚ) : qadd a b = a + b := by
  have ha : (a.den : ℚ) ≠ 0 := by exact_mod_cast a.den_nz
  have hb : (b.den : ℚ) ≠ 0 := by exact_mod_cast b.den_nz
  rw [qadd, Rat.divInt_eq_div]
  push_cast
  rw [num_eq_mul_den a, num_eq_mul_den b, div_eq_iff (mul_ne_zero ha hb)]
  ring

theorem qsub_eq (a b : ℚ) : qsub a b = a - b := by
  have ha : (a.den : ℚ) ≠ 0 := by exact_mod_cast a.den_nz
  have hb : (b.den : ℚ) ≠ 0 := by exact_mod_cast b.den_nz
  rw [qsub, Rat.divInt_eq_div]
  push_cast
  rw [num_eq_mul_den a, num_eq_mul_den b, div_eq_iff (mul_ne_zero ha hb)]
  ring

theorem qmul_eq (a b : ℚ) : qmul a b = a * b := by
  have ha : (a.den : ℚ) ≠ 0 := by exact_mod_cast a.den_nz
  have hb : (b.den : ℚ) ≠ 0 := by exact_mod_cast b.den_nz
  rw [qmul, Rat.divInt_eq_div]
  push_cast
  rw [num_eq_mul_den a, num_eq_mul_den b, div_eq_iff (mul_ne_zero ha hb)]
  ring

theorem qdiv_eq (a b : ℚ) : qdiv a b = a / b := by
  have ha : (a.den : ℚ) ≠ 0 := by exact_mod_cast a.den_nz
  have hb : (b.den : ℚ) ≠ 0 := by exact_mod_cast b.den_nz
  rcases eq_or_ne b 0 with rfl | hbz
  · simp [qdiv]
  · have hbn : (b.num : ℚ) ≠ 0 := by
      intro h
      apply hbz
      rw [← Rat.num_div_den b, h, zero_div]
    rw [qdiv, Rat.divInt_eq_div]
    push_cast
    rw [div_eq_div_iff (mul_ne_zero ha hbn) hbz, num_eq_mul_den a, num_eq_mul_den b]
    ring

theorem qofInt_eq (z : Int) : qofInt z = (z : ℚ) := by
  rw [qofInt, Rat.divInt_eq_div]
  norm_num

theorem qlt_iff (a b : ℚ) : qlt a b = true ↔ a < b := Iff.rfl

/-- `uint32 → int` conversion (two's complement), as performed by
`int(global_coordinates(n)[i])` in `Orthtree::bbox` and
`int(2 * global_coordinates(n)[i] + 1)` in `Orthtree::barycenter`. -/
def toInt32 (x : Nat) : Int :=
  if x % 2 ^ 32 < 2 ^ 31 then (x % 2 ^ 32 : Int) else (x % 2 ^ 32 : Int) - 2 ^ 32

/-! ## The node store -/

/-- State of a `CGAL::Orthtree` over a `D`-dimensional traits class:
the per-node attribute arrays of the property container, the root bounding
box `m_bbox` (as its min and max corner coordinates) and the per-depth side
length table `m_side_per_depth`.  The root is node `0`. -/
structure Orthtree (D : Nat) where
  depths : List Nat
  coords : List (List Nat)
  parents : List (Option Nat)
  children : List (Option Nat)
  rootMin : List ℚ
  rootMax : List ℚ
  sides : List (List ℚ)
deriving DecidableEq, Repr

variable {D : Nat}

/-- `Degree::value = 2 << (Dimension::value - 1)`, the number of children of
a non-leaf node. -/
def degreeVal (D : Nat) : Nat := 2 <<< (D - 1)

theorem degreeVal_eq (D : Nat) (h : 0 < D) : degreeVal D = 2 ^ D := by
  rw [degreeVal, Nat.shiftLeft_eq]
  cases D with
  | zero => omega
  | succ k => rw [pow_succ, mul_comm, Nat.succ_sub_one]

/-- Number of nodes in the store. -/
def size (t : Orthtree D) : Nat := t.depths.length

/-- `Orthtree::is_leaf`: a node is a leaf iff it has no first-child entry. -/
def isLeaf (t : Orthtree D) (n : Nat) : Bool := (t.children.getD n none).isNone

/-- `Orthtree::child`: the `i`-th child, `*m_node_children[n] + i`
(children of one node occupy a contiguous block). -/
def child (t : Orthtree D) (n i : Nat) : Nat := (t.children.getD n none).getD 0 + i

/-- `Orthtree::parent`: `*m_node_parents[n]` (precondition `!is_root(n)`). -/
def parentIdx (t : Orthtree D) (n : Nat) : Nat := (t.parents.getD n none).getD 0

/-- `Orthtree::depth(n)`: the stored `uint8` depth of a node. -/
def nodeDepth (t : Orthtree D) (n : Nat) : Nat := t.depths.getD n 0

/-- `Orthtree::global_coordinates(n)[i]`, a stored `uint32`. -/
def gc (t : Orthtree D) (n i : Nat) : Nat := (t.coords.getD n []).getD i 0

/-- `Orthtree::local_coordinates(n).to_ulong()`: bit `i` is
`global_coordinates(n)[i] & 1`. -/
def localsVal (t : Orthtree D) (n : Nat) : Nat :=
  ((List.range D).map (fun i => gc t n i % 2 * 2 ^ i)).sum

/-- Bit `j` of the local coordinates `Local_coordinates{i}` of the `i`-th
child created by a split. -/
def childBit (i j : Nat) : Nat := i / 2 ^ j % 2

/-! ## Splitting -/

/-- The mutation performed by `Orthtree::split` (without its
`CGAL_precondition (is_leaf(n))`): allocate a contiguous group of
`Degree::value` fresh nodes (`emplace_group`), record the first as
`m_node_children[n]`, set each child's coordinates to
`2 * parent coordinate + local bit` (stored as `uint32`), its depth to
`parent depth + 1` (stored as `uint8`) and its parent to `n`; if the split
reaches a new maximum depth, extend `m_side_per_depth` by halving its last
entry.  The content-redistribution traits callback does not change the node
store and is not modelled. -/
def splitU (t : Orthtree D) (n : Nat) : Orthtree D :=
  let fc := t.depths.length
  let deg := degreeVal D
  { depths := t.depths ++ (List.range deg).map (fun _ => (nodeDepth t n + 1) % 256)
  , coords := t.coords ++ (List.range deg).map (fun i =>
      (List.range D).map (fun j => (2 * gc t n j + childBit i j) % 2 ^ 32))
  , parents := t.parents ++ (List.range deg).map (fun _ => some n)
  , children := (t.children.set n (some fc)) ++ (List.range deg).map (fun _ => none)
  , rootMin := t.rootMin
  , rootMax := t.rootMax
  , sides := if nodeDepth t n + 1 == t.sides.length
      then t.sides ++ [(t.sides.getLast?.getD []).map (fun s => qdiv s 2)]
      else t.sides }

/-- `Orthtree::split` with its precondition: splitting a non-leaf trips
`CGAL_precondition (is_leaf(n))`, modelled as `none`. -/
def splitNode (t : Orthtree D) (n : Nat) : Option (Orthtree D) :=
  if isLeaf t n then some (splitU t n) else none

/-- The tree built by the constructor `Orthtree(Traits)`: a single root node
(depth 0, zero coordinates, no parent, no children), the root bounding box,
and a one-entry side-length table holding the root box dimensions. -/
def initialTree (D : Nat) (bmin bmax : List ℚ) : Orthtree D :=
  { depths := [0]
  , coords := [List.replicate D 0]
  , parents := [none]
  , children := [none]
  , rootMin := bmin, rootMax := bmax
  , sides := [(List.range D).map (fun i => qsub (bmax.getD i 0) (bmin.getD i 0))] }

/-! ## Refinement -/

/-- Outcome of a queue-driven tree operation: normal termination, a tripped
`CGAL_precondition` (fatal in a debug build), or exhausted fuel. -/
inductive RunResult (D : Nat) where
  | ok (t : Orthtree D)
  | violation
  | fuelOut
deriving DecidableEq

/-- The breadth-first loop of `Orthtree::refine(split_predicate)`: pop a
node, call `split` on it whenever the predicate holds (note: the code checks
only the predicate, not `is_leaf`, before calling `split`), then enqueue all
children of the node if it has any. -/
def refineAux (pred : Nat → Orthtree D → Bool) :
    Nat → Orthtree D → List Nat → RunResult D
  | _, t, [] => .ok t
  | 0, _, _ :: _ => .fuelOut
  | fuel+1, t, n :: rest =>
    if pred n t then
      if isLeaf t n then
        let t2 := splitU t n
        refineAux pred fuel t2 (rest ++ (List.range (degreeVal D)).map (child t2 n))
      else .violation
    else
      if isLeaf t n then refineAux pred fuel t rest
      else refineAux pred fuel t (rest ++ (List.range (degreeVal D)).map (child t n))

/-- `Orthtree::refine(split_predicate)`: breadth-first from the root. -/
def refine (pred : Nat → Orthtree D → Bool) (fuel : Nat) (t : Orthtree D) :
    RunResult D :=
  refineAux pred fuel t [0]

/-! ## Adjacency -/

/-- The recursion of `Orthtree::adjacent_node(n, direction)`.  `dir` is the
value of the direction bitset: bit 0 the sign, the remaining bits the axis.
The root has no neighbors; a node whose local bit along the axis differs from
the sign has its neighbor as a direct sibling (local coordinates plus or
minus `2^axis`); otherwise the parent's neighbor in the same direction is
consulted and, unless it is a leaf, its "mirror" child is returned. -/
def adjacentAux (t : Orthtree D) (dir : Nat) : Nat → Nat → Option Nat
  | 0, _ => none
  | fuel+1, n =>
    if n = 0 then none
    else
      let sign := dir % 2
      let dim := dir / 2
      if gc t n dim % 2 ≠ sign then
        some (child t (parentIdx t n)
          (if sign = 1 then localsVal t n + 2 ^ dim else localsVal t n - 2 ^ dim))
      else
        match adjacentAux t dir fuel (parentIdx t n) with
        | none => none
        | some a =>
          if isLeaf t a then some a
          else some (child t a
            (if sign = 1 then localsVal t n - 2 ^ dim else localsVal t n + 2 ^ dim))

/-- `Orthtree::adjacent_node(n, direction)` (fuel: the node count, enough for
any well-formed tree since the recursion climbs the parent chain). -/
def adjacentNode (t : Orthtree D) (n dir : Nat) : Option Nat :=
  adjacentAux t dir (size t) n

/-! ## Traversals -/

/-- `Orthtree::next_sibling`. -/
def nextSibling (t : Orthtree D) (n : Nat) : Option Nat :=
  if n = 0 then none
  else
    let lc := localsVal t n
    if lc = degreeVal D - 1 then none
    else some (child t (parentIdx t n) (lc + 1))

/-- The climbing loop of `Orthtree::next_sibling_up`. -/
def nextSiblingUpAux (t : Orthtree D) : Nat → Option Nat → Option Nat
  | _, none => none
  | 0, some _ => none
  | fuel+1, some up =>
    match nextSibling t up with
    | some s => some s
    | none => nextSiblingUpAux t fuel (if up = 0 then none else some (parentIdx t up))

/-- `Orthtree::next_sibling_up`. -/
def nextSiblingUp (t : Orthtree D) (n : Nat) : Option Nat :=
  if n = 0 then none else nextSiblingUpAux t (size t) (some (parentIdx t n))

/-- The descent loop of `Orthtree::deepest_first_child`. -/
def deepestFirstChildAux (t : Orthtree D) : Nat → Nat → Nat
  | 0, n => n
  | fuel+1, n => if isLeaf t n then n else deepestFirstChildAux t fuel (child t n 0)

/-- `Orthtree::deepest_first_child`: descend while not a leaf, always taking
child 0. -/
def deepestFirstChild (t : Orthtree D) (n : Nat) : Nat :=
  deepestFirstChildAux t (size t) n

/-- The breadth-first loop of `Orthtree::first_child_at_depth`. -/
def firstChildAtDepthAux (t : Orthtree D) (d : Nat) : Nat → List Nat → Option Nat
  | _, [] => none
  | 0, _ :: _ => none
  | fuel+1, m :: rest =>
    if nodeDepth t m = d then some m
    else
      firstChildAtDepthAux t d fuel
        (rest ++ (if isLeaf t m then []
                  else (List.range (degreeVal D)).map (child t m)))

/-- `Orthtree::first_child_at_depth(n, d)`: breadth-first search for the
first node of depth `d` below `n`; `none` if the subtree is not that deep. -/
def firstChildAtDepth (t : Orthtree D) (n d : Nat) : Option Nat :=
  firstChildAtDepthAux t d (size t) [n]

/-- `Orthtrees::Preorder_traversal::next_index`. -/
def preorderNext (t : Orthtree D) (n : Nat) : Option Nat :=
  if isLeaf t n then
    match nextSibling t n with
    | some s => some s
    | none => nextSiblingUp t n
  else
    some (child t n 0)

/-- `Orthtrees::Leaves_traversal::next_index`. -/
def leavesNext (t : Orthtree D) (n : Nat) : Option Nat :=
  match nextSibling t n with
  | some s => some (deepestFirstChild t s)
  | none =>
    match nextSiblingUp t n with
    | some s => some (deepestFirstChild t s)
    | none => none

/-- The node sequence of a traversal: the first index followed by repeated
`next_index`, cut off by fuel (the iterator range of `Orthtree::traverse`). -/
def unfoldTraversal (next : Nat → Option Nat) : Nat → Nat → List Nat
  | 0, n => [n]
  | fuel+1, n =>
    n :: (match next n with
          | none => []
          | some m => unfoldTraversal next fuel m)

/-- The sequence of `Orthtrees::Preorder_traversal` (first index: the root). -/
def preorderList (t : Orthtree D) : List Nat :=
  unfoldTraversal (preorderNext t) (size t) 0

/-- The sequence of `Orthtrees::Leaves_traversal` (first index: the deepest
first child of the root). -/
def leavesList (t : Orthtree D) : List Nat :=
  unfoldTraversal (leavesNext t) (size t) (deepestFirstChild t 0)

/-! ## Grading -/

/-- The direction values that the loop
`for (int direction = 0; direction < 6; ++direction)` of `Orthtree::grade`
passes to `adjacent_node`.  The `int` is converted to the
`std::bitset<Dimension::value>` parameter of `adjacent_node`, which keeps
only the low `D` bits, hence the truncation `% 2^D`. -/
def gradeDirections (D : Nat) : List Nat := (List.range 6).map (fun d => d % 2 ^ D)

/-- The body of `Orthtree::grade` for one dequeued leaf: for each of the six
direction values, find the adjacent node; skip it if absent, if it is a
direct sibling, or if it is not a leaf; split it when the depth difference
(computed in `std::size_t`) exceeds 1 and enqueue its fresh children.
Returns the updated tree and the list of enqueued nodes. -/
def gradeStep (t : Orthtree D) (node : Nat) : Orthtree D × List Nat :=
  (gradeDirections D).foldl (fun acc dir =>
    let t := acc.1
    match adjacentNode t node dir with
    | none => acc
    | some nb =>
      if parentIdx t nb = parentIdx t node then acc
      else if !isLeaf t nb then acc
      else if nodeDepth t node - nodeDepth t nb > 1 then
        let t2 := splitU t nb
        (t2, acc.2 ++ (List.range (degreeVal D)).map (child t2 nb))
      else acc) (t, [])

/-- The queue loop of `Orthtree::grade`: pop a node, skip it if it is no
longer a leaf, otherwise run `gradeStep` and append the enqueued children. -/
def gradeAux (t : Orthtree D) : Nat → List Nat → Option (Orthtree D)
  | _, [] => some t
  | 0, _ :: _ => none
  | fuel+1, n :: rest =>
    if !isLeaf t n then gradeAux t fuel rest
    else
      let s := gradeStep t n
      gradeAux s.1 fuel (rest ++ s.2)

/-- `Orthtree::grade()`: seed the queue with all leaves (in
`Leaves_traversal` order) and run the loop; `none` means the given fuel did
not suffice. -/
def grade (fuel : Nat) (t : Orthtree D) : Option (Orthtree D) :=
  gradeAux t fuel (leavesList t)

/-! ## Geometry -/

/-- Entry `i` of `m_side_per_depth[d]`. -/
def sideAt (t : Orthtree D) (d i : Nat) : ℚ := (t.sides.getD d []).getD i 0

/-- Coordinate `i` of `Orthtree::barycenter(n)`:
`min[i] + int(2 * global_coordinates(n)[i] + 1) * (size[i] / FT(2))`, where
the factor is computed in `uint32` then converted to `int`. -/
def barycenter (t : Orthtree D) (n i : Nat) : ℚ :=
  qadd (t.rootMin.getD i 0)
    (qmul (qofInt (toInt32 ((2 * gc t n i + 1) % 2 ^ 32)))
      (qdiv (sideAt t (nodeDepth t n) i) 2))

/-- Coordinate `i` of the min corner of `Orthtree::bbox(n)`:
`min[i] + int(global_coordinates(n)[i]) * size[i]` — never snapped. -/
def bboxMin (t : Orthtree D) (n i : Nat) : ℚ :=
  qadd (t.rootMin.getD i 0)
    (qmul (qofInt (toInt32 (gc t n i))) (sideAt t (nodeDepth t n) i))

/-- Coordinate `i` of the max corner of `Orthtree::bbox(n)`: snapped to the
root box max corner when the node occupies the last cell
(`global_coordinates(n)[i] == 2^depth - 1`, the code's
`std::pow(2, node_depth) - 1`, exact for the depths under consideration),
otherwise `min[i] + int(global_coordinates(n)[i] + 1) * size[i]` with the
increment computed in `uint32`. -/
def bboxMax (t : Orthtree D) (n i : Nat) : ℚ :=
  if gc t n i = 2 ^ nodeDepth t n - 1 then t.rootMax.getD i 0
  else
    qadd (t.rootMin.getD i 0)
      (qmul (qofInt (toInt32 ((gc t n i + 1) % 2 ^ 32))) (sideAt t (nodeDepth t n) i))

/-- Modelled from the spec: the caller-supplied half-space predicate of the
traits class (`locate_halfspace_object`, applied to a barycenter coordinate
and a point coordinate; the traits sources are not part of the sampled
code).  Modelled as the strict comparison `center < point`, so that bit `i`
selects the upper half-space along axis `i`. -/
def locateHalfspace (center p : ℚ) : Bool := qlt center p

/-- The descent loop of `Orthtree::locate`. -/
def locateAux (t : Orthtree D) (p : List ℚ) : Nat → Nat → Nat
  | 0, n => n
  | fuel+1, n =>
    if isLeaf t n then n
    else
      let lc := ((List.range D).map (fun i =>
        (if locateHalfspace (barycenter t n i) (p.getD i 0) then 1 else 0) * 2 ^ i)).sum
      locateAux t p fuel (child t n lc)

/-- `Orthtree::locate(point)`: from the root, while the current node is not
a leaf, build the local coordinate bitset by comparing the point to the
barycenter along each axis and descend into that child. -/
def locate (t : Orthtree D) (p : List ℚ) : Nat := locateAux t p (size t) 0

/-! ## Auxiliary list lemmas -/

theorem getD_map_range {α : Type} (f : Nat → α) (d : α) (k n : Nat) (h : n < k) :
    ((List.range k).map f).getD n d = f n := by
  rw [List.getD_eq_getElem _ _ (by simpa using h)]
  simp

theorem getD_map_range_ge {α : Type} (f : Nat → α) (d : α) (k n : Nat) (h : k ≤ n) :
    ((List.range k).map f).getD n d = d :=
  List.getD_eq_default _ _ (by simpa using h)

theorem getD_set_ne {α : Type} (l : List α) (d : α) (m n : Nat) (a : α) (h : m ≠ n) :
    (l.set m a).getD n d = l.getD n d := by
  rcases Nat.lt_or_ge n l.length with hn | hn
  · rw [List.getD_eq_getElem _ _ (by simpa using hn),
      List.getD_eq_getElem _ _ hn, List.getElem_set_ne (by omega)]
  · rw [List.getD_eq_default _ _ (by simpa using hn), List.getD_eq_default _ _ hn]

theorem getD_set_self {α : Type} (l : List α) (d : α) (n : Nat) (a : α)
    (h : n < l.length) :
    (l.set n a).getD n d = a := by
  rw [List.getD_eq_getElem _ _ (by simpa using h), List.getElem_set_self]

/-! ## Auxiliary bit lemmas

`localsVal` and the index arithmetic of `adjacent_node` manipulate the `D`
low bits of child positions; the following lemmas relate the bit sums to the
positions. -/

/-- Sum of bits `f j * 2^j` over `j < D`, the shape of `localsVal` and of
`Local_coordinates::to_ulong`. -/
def bitsum (f : Nat → Nat) (D : Nat) : Nat :=
  ((List.range D).map (fun j => f j * 2 ^ j)).sum

theorem bitsum_succ (f : Nat → Nat) (D : Nat) :
    bitsum f (D + 1) = bitsum f D + f D * 2 ^ D := by
  rw [bitsum, bitsum, List.range_succ, List.map_append, List.sum_append]
  simp

theorem bitsum_lt (f : Nat → Nat) (D : Nat) (hf : ∀ j, f j ≤ 1) :
    bitsum f D < 2 ^ D := by
  induction D with
  | zero => simp [bitsum]
  | succ k ih =>
    have := hf k
    have h2 : (0:Nat) < 2 ^ k := Nat.two_pow_pos k
    rw [bitsum_succ, pow_succ]
    nlinarith

theorem add_mul_pow_div_mod (x c dim : Nat) :
    (x + 2 ^ (dim + 1) * c) / 2 ^ dim % 2 = x / 2 ^ dim % 2 := by
  have h : (2:Nat) ^ (dim + 1) * c = 2 ^ dim * (2 * c) := by
    rw [pow_succ]
    ring
  rw [h, Nat.add_mul_div_left _ _ (Nat.two_pow_pos dim), Nat.add_mul_mod_self_left]

theorem bitsum_bit (f : Nat → Nat) (D dim : Nat) (hf : ∀ j, f j ≤ 1) (h : dim < D) :
    bitsum f D / 2 ^ dim % 2 = f dim := by
  induction D with
  | zero => omega
  | succ k ih =>
    rcases Nat.lt_or_ge dim k with hk | hk
    · rw [bitsum_succ]
      have he : f k * 2 ^ k = 2 ^ (dim + 1) * (f k * 2 ^ (k - dim - 1)) := by
        rw [← mul_assoc, mul_comm (2 ^ (dim+1)) (f k), mul_assoc, ← pow_add]
        congr 2
        omega
      rw [he, add_mul_pow_div_mod, ih hk]
    · have hdk : dim = k := by omega
      subst hdk
      rw [bitsum_succ, mul_comm (f dim), Nat.add_mul_div_left _ _ (Nat.two_pow_pos dim),
        Nat.div_eq_of_lt (bitsum_lt f dim hf), Nat.zero_add,
        Nat.mod_eq_of_lt (by have := hf dim; omega)]

theorem childBit_le (i j : Nat) : childBit i j ≤ 1 :=
  Nat.le_of_lt_succ (Nat.mod_lt _ (by omega))

theorem mod_two_pow_succ (i k : Nat) :
    i % 2 ^ (k + 1) = i % 2 ^ k + i / 2 ^ k % 2 * 2 ^ k := by
  have h1 := Nat.div_add_mod i (2 ^ k)
  have h2 := Nat.div_add_mod (i / 2 ^ k) 2
  have h3 : i % 2 ^ k < 2 ^ k := Nat.mod_lt _ (Nat.two_pow_pos k)
  have h4 : i / 2 ^ k % 2 < 2 := Nat.mod_lt _ (by omega)
  have h5 : (i % 2 ^ k + i / 2 ^ k % 2 * 2 ^ k) + 2 ^ (k + 1) * (i / 2 ^ k / 2) = i := by
    calc (i % 2 ^ k + i / 2 ^ k % 2 * 2 ^ k) + 2 ^ (k + 1) * (i / 2 ^ k / 2)
        = i % 2 ^ k + (2 ^ k * (i / 2 ^ k % 2) + 2 ^ k * (2 * (i / 2 ^ k / 2))) := by
          rw [pow_succ]
          ring
      _ = i % 2 ^ k + 2 ^ k * (i / 2 ^ k) := by
          rw [← Nat.mul_add, Nat.add_comm (i / 2 ^ k % 2), h2]
      _ = i := by omega
  have h6 : i / 2 ^ k % 2 * 2 ^ k ≤ 1 * 2 ^ k := Nat.mul_le_mul_right _ (by omega)
  conv_lhs => rw [← h5]
  rw [Nat.add_mul_mod_self_left, Nat.mod_eq_of_lt (by rw [pow_succ]; omega)]

theorem bitsum_childBit (i D : Nat) : bitsum (childBit i) D = i % 2 ^ D := by
  induction D with
  | zero => simp [bitsum, Nat.mod_one]
  | succ k ih =>
    rw [bitsum_succ, ih, childBit, mod_two_pow_succ i k]

theorem bitsum_reconstruct (i D : Nat) (h : i < 2 ^ D) : bitsum (childBit i) D = i := by
  rw [bitsum_childBit, Nat.mod_eq_of_lt h]

structure WF (t : Orthtree D) : Prop where
  dpos : 0 < D
  len_coords : t.coords.length = size t
  len_parents : t.parents.length = size t
  len_children : t.children.length = size t
  size_pos : 0 < size t
  root_depth : nodeDepth t 0 = 0
  root_parent : t.parents.getD 0 none = none
  root_gc : ∀ i, gc t 0 i = 0
  coords_len : ∀ n, n < size t → (t.coords.getD n []).length = D
  sides_pos : 0 < t.sides.length
  sides_le : t.sides.length ≤ size t
  depth_lt : ∀ n, n < size t → nodeDepth t n < t.sides.length
  gc_lt : ∀ n, n < size t → ∀ j, gc t n j < 2 ^ nodeDepth t n
  children_block : ∀ n, n < size t → ∀ fc, t.children.getD n none = some fc →
    0 < fc ∧ fc + 2 ^ D ≤ size t ∧
    ∀ i, i < 2 ^ D →
      t.parents.getD (fc + i) none = some n ∧
      nodeDepth t (fc + i) = nodeDepth t n + 1 ∧
      ∀ j, gc t (fc + i) j = 2 * gc t n j + childBit i j
  parent_block : ∀ n, 0 < n → n < size t →
    ∃ p fc i, p < size t ∧ t.children.getD p none = some fc ∧ i < 2 ^ D ∧ n = fc + i
  sides_row_len : ∀ d, d < t.sides.length → (t.sides.getD d []).length = D
  sides_val : ∀ d, d < t.sides.length → ∀ i, i < D →
    sideAt t d i = (t.rootMax.getD i 0 - t.rootMin.getD i 0) / 2 ^ d

theorem localsVal_eq_bitsum (t : Orthtree D) (n : Nat) :
    localsVal t n = bitsum (fun j => gc t n j % 2) D := rfl

theorem isLeaf_iff_none (t : Orthtree D) (n : Nat) :
    isLeaf t n = true ↔ t.children.getD n none = none := by
  rw [isLeaf, Option.isNone_iff_eq_none]

theorem isLeaf_false_iff (t : Orthtree D) (n : Nat) :
    isLeaf t n = false ↔ ∃ fc, t.children.getD n none = some fc := by
  rw [isLeaf]
  cases t.children.getD n none with
  | none => simp
  | some fc => simp

/-- Facts about the `i`-th child of a non-leaf node of a well-formed tree. -/
theorem WF.child_facts {t : Orthtree D} (w : WF t) {n i : Nat} (hn : n < size t)
    (hl : isLeaf t n = false) (hi : i < 2 ^ D) :
    child t n i < size t ∧ 0 < child t n i ∧
    nodeDepth t (child t n i) = nodeDepth t n + 1 ∧
    t.parents.getD (child t n i) none = some n ∧
    parentIdx t (child t n i) = n ∧
    localsVal t (child t n i) = i ∧
    (∀ j, gc t (child t n i) j = 2 * gc t n j + childBit i j) := by
  obtain ⟨fc, hfc⟩ := (isLeaf_false_iff t n).mp hl
  obtain ⟨hfc0, hbnd, hblk⟩ := w.children_block n hn fc hfc
  obtain ⟨hpar, hdep, hgc⟩ := hblk i hi
  have hc : child t n i = fc + i := by
    rw [child, hfc, Option.getD_some]
  have hlv : localsVal t (child t n i) = i := by
    rw [hc, localsVal_eq_bitsum]
    have he : (fun j => gc t (fc + i) j % 2) = childBit i := by
      funext j
      rw [hgc j]
      have hb := childBit_le i j
      omega
    rw [he, bitsum_reconstruct i D hi]
  refine ⟨by omega, by omega, ?_, ?_, ?_, hlv, ?_⟩
  · rw [hc]
    exact hdep
  · rw [hc]
    exact hpar
  · rw [hc, parentIdx, hpar, Option.getD_some]
  · intro j
    rw [hc]
    exact hgc j

/-- `opposite(direction)`: same axis, flipped sign bit. -/
def oppositeDir (dir : Nat) : Nat := if dir % 2 = 1 then dir - 1 else dir + 1

theorem oppositeDir_lt (dir D : Nat) (h : dir < 2 * D) : oppositeDir dir < 2 * D := by
  rw [oppositeDir]
  split <;> omega

theorem splitU_depths (t : Orthtree D) (n : Nat) :
    (splitU t n).depths = t.depths ++ (List.range (degreeVal D)).map
      (fun _ => (nodeDepth t n + 1) % 256) := rfl

theorem splitU_coords (t : Orthtree D) (n : Nat) :
    (splitU t n).coords = t.coords ++ (List.range (degreeVal D)).map
      (fun i => (List.range D).map
        (fun j => (2 * gc t n j + childBit i j) % 2 ^ 32)) := rfl

theorem splitU_parents (t : Orthtree D) (n : Nat) :
    (splitU t n).parents = t.parents ++ (List.range (degreeVal D)).map
      (fun _ => some n) := rfl

theorem splitU_children (t : Orthtree D) (n : Nat) :
    (splitU t n).children = (t.children.set n (some (size t)))
      ++ (List.range (degreeVal D)).map (fun _ => none) := rfl

theorem splitU_rootMin (t : Orthtree D) (n : Nat) :
    (splitU t n).rootMin = t.rootMin := rfl

theorem splitU_rootMax (t : Orthtree D) (n : Nat) :
    (splitU t n).rootMax = t.rootMax := rfl

theorem splitU_sides (t : Orthtree D) (n : Nat) :
    (splitU t n).sides = if nodeDepth t n + 1 = t.sides.length
      then t.sides ++ [(t.sides.getLast?.getD []).map (fun s => qdiv s 2)]
      else t.sides := by
  rw [splitU]
  by_cases h : nodeDepth t n + 1 = t.sides.length
  · rw [if_pos h, if_pos (by simpa using h)]
  · rw [if_neg h, if_neg (by simpa using h)]

theorem size_splitU (t : Orthtree D) (n : Nat) (w : WF t) :
    size (splitU t n) = size t + 2 ^ D := by
  rw [size, splitU_depths, List.length_append, List.length_map,
    List.length_range, degreeVal_eq D w.dpos]
  rfl

theorem size_def (t : Orthtree D) : t.depths.length = size t := rfl

theorem getLast?_getD_eq_getD {α : Type} (l : List α) (d : α) :
    l.getLast?.getD d = l.getD (l.length - 1) d := by
  rw [List.getLast?_eq_getElem?, List.getD_eq_getD_get?, List.get?_eq_getElem?]

/-- Attributes of pre-existing nodes are unchanged by a split (the changed
children entry of `n` apart). -/
theorem splitU_old (t : Orthtree D) (n m : Nat) (w : WF t) (hm : m < size t) :
    nodeDepth (splitU t n) m = nodeDepth t m ∧
    (∀ j, gc (splitU t n) m j = gc t m j) ∧
    (splitU t n).parents.getD m none = t.parents.getD m none ∧
    (m ≠ n → (splitU t n).children.getD m none = t.children.getD m none) := by
  refine ⟨?_, ?_, ?_, ?_⟩
  · rw [nodeDepth, splitU_depths, List.getD_append _ _ _ _ (by rw [size_def]; omega),
      nodeDepth]
  · intro j
    rw [gc, splitU_coords, List.getD_append _ _ _ _ (by rw [w.len_coords]; omega), gc]
  · rw [splitU_parents, List.getD_append _ _ _ _ (by rw [w.len_parents]; omega)]
  · intro hne
    rw [splitU_children, List.getD_append _ _ _ _
      (by rw [List.length_set, w.len_children]; omega), getD_set_ne _ _ _ _ _
      (by omega)]

/-- Attributes of the fresh children created by a split. -/
theorem splitU_new (t : Orthtree D) (n i : Nat) (w : WF t) (hi : i < 2 ^ D) :
    nodeDepth (splitU t n) (size t + i) = (nodeDepth t n + 1) % 256 ∧
    (∀ j, gc (splitU t n) (size t + i) j
      = if j < D then (2 * gc t n j + childBit i j) % 2 ^ 32 else 0) ∧
    (splitU t n).parents.getD (size t + i) none = some n ∧
    (splitU t n).children.getD (size t + i) none = none := by
  have hdeg : degreeVal D = 2 ^ D := degreeVal_eq D w.dpos
  refine ⟨?_, ?_, ?_, ?_⟩
  · rw [nodeDepth, splitU_depths, List.getD_append_right _ _ _ _ (by rw [size_def]; omega),
      size_def, Nat.add_sub_cancel_left, getD_map_range _ _ _ _ (by omega)]
  · intro j
    rw [gc, splitU_coords, List.getD_append_right _ _ _ _ (by rw [w.len_coords]; omega),
      w.len_coords, Nat.add_sub_cancel_left, getD_map_range _ _ _ _ (by omega)]
    rcases Nat.lt_or_ge j D with hj | hj
    · rw [if_pos hj, getD_map_range _ _ _ _ hj]
    · rw [if_neg (by omega), getD_map_range_ge _ _ _ _ (by simpa using hj)]
  · rw [splitU_parents, List.getD_append_right _ _ _ _ (by rw [w.len_parents]; omega),
      w.len_parents, Nat.add_sub_cancel_left, getD_map_range _ _ _ _ (by omega)]
  · rw [splitU_children, List.getD_append_right _ _ _ _
      (by rw [List.length_set, w.len_children]; omega), List.length_set, w.len_children,
      Nat.add_sub_cancel_left, getD_map_range _ _ _ _ (by omega)]

theorem splitU_children_self (t : Orthtree D) (n : Nat) (w : WF t)
    (hn : n < size t) :
    (splitU t n).children.getD n none = some (size t) := by
  rw [splitU_children, List.getD_append _ _ _ _
    (by rw [List.length_set, w.len_children]; omega),
    getD_set_self _ _ _ _ (by rw [w.len_children]; omega)]

/-- The tree built by the constructor is well formed (for a positive
dimension). -/
theorem wf_initial (D : Nat) (h : 0 < D) (bmin bmax : List ℚ) :
    WF (initialTree D bmin bmax) := by
  refine ⟨h, rfl, rfl, rfl, by rw [size]; simp [initialTree], rfl, rfl, ?_, ?_, ?_,
    ?_, ?_, ?_, ?_, ?_, ?_, ?_⟩
  · intro i
    rw [gc, initialTree]
    rcases Nat.lt_or_ge i D with hi | hi
    · rw [List.getD_cons_zero, List.getD_eq_getElem _ _ (by simpa using hi)]
      simp
    · rw [List.getD_cons_zero, List.getD_eq_default _ _ (by simpa using hi)]
  · intro n hn
    rw [size, initialTree] at hn
    simp only [List.length_cons, List.length_nil] at hn
    have : n = 0 := by omega
    subst this
    rw [initialTree, List.getD_cons_zero, List.length_replicate]
  · rw [initialTree]
    simp
  · rw [size, initialTree]
    simp
  · intro n hn
    rw [size, initialTree] at hn
    simp only [List.length_cons, List.length_nil] at hn
    have h0 : n = 0 := by omega
    subst h0
    rw [initialTree, nodeDepth, List.getD_cons_zero]
    simp [initialTree]
  · intro n hn j
    rw [size, initialTree] at hn
    simp only [List.length_cons, List.length_nil] at hn
    have h0 : n = 0 := by omega
    subst h0
    rw [nodeDepth, initialTree, List.getD_cons_zero, gc, List.getD_cons_zero]
    rcases Nat.lt_or_ge j D with hj | hj
    · rw [List.getD_eq_getElem _ _ (by simpa using hj)]
      simp
    · rw [List.getD_eq_default _ _ (by simpa using hj)]
      simp
  · intro n hn fc hfc
    rw [size, initialTree] at hn
    simp only [List.length_cons, List.length_nil] at hn
    have h0 : n = 0 := by omega
    subst h0
    rw [initialTree, List.getD_cons_zero] at hfc
    cases hfc
  · intro n h0 hn
    rw [size, initialTree] at hn
    simp only [List.length_cons, List.length_nil] at hn
    omega
  · intro d hd
    rw [initialTree] at hd ⊢
    simp only [List.length_cons, List.length_nil] at hd
    have h0 : d = 0 := by omega
    subst h0
    rw [List.getD_cons_zero]
    simp
  · intro d hd i hi
    rw [initialTree] at hd
    simp only [List.length_cons, List.length_nil] at hd
    have h0 : d = 0 := by omega
    subst h0
    rw [sideAt, initialTree, List.getD_cons_zero, getD_map_range _ _ _ _ hi,
      qsub_eq, pow_zero, div_one]

/-- `split` on a leaf of a well-formed tree of depth below 31 yields a
well-formed tree: no stored depth or coordinate is truncated. -/
theorem wf_splitU {t : Orthtree D} (w : WF t) {n : Nat} (hn : n < size t)
    (hleaf : isLeaf t n = true) (hd : nodeDepth t n < 31) :
    WF (splitU t n) := by
  have hdeg : degreeVal D = 2 ^ D := degreeVal_eq D w.dpos
  have hsz := size_splitU t n w
  have h2D : 0 < 2 ^ D := Nat.two_pow_pos D
  have hmod : (nodeDepth t n + 1) % 256 = nodeDepth t n + 1 :=
    Nat.mod_eq_of_lt (by omega)
  have hnd := w.depth_lt n hn
  -- coordinates of n do not overflow when doubled
  have hgcb : ∀ j, 2 * gc t n j + 1 < 2 ^ 32 := by
    intro j
    have h1 := w.gc_lt n hn j
    have h2 : (2:Nat) ^ nodeDepth t n ≤ 2 ^ 30 := Nat.pow_le_pow_right (by omega) (by omega)
    have h3 : (2:Nat) ^ 30 * 2 < 2 ^ 32 := by norm_num
    omega
  have hcmod : ∀ i j, (2 * gc t n j + childBit i j) % 2 ^ 32
      = 2 * gc t n j + childBit i j := by
    intro i j
    have := hgcb j
    have := childBit_le i j
    exact Nat.mod_eq_of_lt (by omega)
  refine ⟨w.dpos, ?_, ?_, ?_, by omega, ?_, ?_, ?_, ?_, ?_, ?_, ?_, ?_, ?_, ?_, ?_, ?_⟩
  · rw [hsz, splitU_coords]
    simp only [List.length_append, List.length_map, List.length_range]
    rw [w.len_coords, hdeg]
  · rw [hsz, splitU_parents]
    simp only [List.length_append, List.length_map, List.length_range]
    rw [w.len_parents, hdeg]
  · rw [hsz, splitU_children]
    simp only [List.length_append, List.length_map, List.length_range, List.length_set]
    rw [w.len_children, hdeg]
  · -- root depth
    rw [(splitU_old t n 0 w w.size_pos).1, w.root_depth]
  · -- root parent
    rw [(splitU_old t n 0 w w.size_pos).2.2.1, w.root_parent]
  · -- root coordinates
    intro i
    rw [(splitU_old t n 0 w w.size_pos).2.1 i, w.root_gc i]
  · -- coordinate rows have length D
    intro m hm
    rw [hsz] at hm
    rcases Nat.lt_or_ge m (size t) with hm2 | hm2
    · rw [splitU_coords, List.getD_append _ _ _ _ (by rw [w.len_coords]; omega)]
      exact w.coords_len m hm2
    · rw [splitU_coords, List.getD_append_right _ _ _ _ (by rw [w.len_coords]; omega),
        w.len_coords, getD_map_range _ _ _ _ (by omega)]
      simp
  · -- sides nonempty
    rw [splitU_sides]
    split
    · simp only [List.length_append, List.length_cons, List.length_nil]
      omega
    · exact w.sides_pos
  · -- sides length at most size
    rw [splitU_sides, hsz]
    have := w.sides_le
    split
    · simp only [List.length_append, List.length_cons, List.length_nil]
      omega
    · omega
  · -- depths below the sides length
    intro m hm
    rw [hsz] at hm
    have hsmono : t.sides.length ≤ (splitU t n).sides.length := by
      rw [splitU_sides]
      split
      · simp only [List.length_append, List.length_cons, List.length_nil]
        omega
      · omega
    have hslen : nodeDepth t n + 1 < (splitU t n).sides.length := by
      rw [splitU_sides]
      by_cases hc : nodeDepth t n + 1 = t.sides.length
      · rw [if_pos hc]
        simp only [List.length_append, List.length_cons, List.length_nil]
        omega
      · rw [if_neg hc]
        omega
    rcases Nat.lt_or_ge m (size t) with hm2 | hm2
    · rw [(splitU_old t n m w hm2).1]
      have := w.depth_lt m hm2
      omega
    · obtain ⟨i, hi, rfl⟩ : ∃ i, i < 2 ^ D ∧ m = size t + i :=
        ⟨m - size t, by omega, by omega⟩
      rw [(splitU_new t n i w hi).1, hmod]
      omega
  · -- coordinate bounds
    intro m hm j
    rw [hsz] at hm
    rcases Nat.lt_or_ge m (size t) with hm2 | hm2
    · rw [(splitU_old t n m w hm2).1, (splitU_old t n m w hm2).2.1 j]
      exact w.gc_lt m hm2 j
    · obtain ⟨i, hi, rfl⟩ : ∃ i, i < 2 ^ D ∧ m = size t + i :=
        ⟨m - size t, by omega, by omega⟩
      rw [(splitU_new t n i w hi).1, hmod, ((splitU_new t n i w hi).2.1) j]
      have h1 := w.gc_lt n hn j
      have h2 := childBit_le i j
      have h3 : (2:Nat) ^ (nodeDepth t n + 1) = 2 * 2 ^ nodeDepth t n := by
        rw [pow_succ]
        ring
      split
      · rw [hcmod i j]
        omega
      · omega
  · -- children blocks
    intro m hm fc hfc
    rw [hsz] at hm
    rcases Nat.lt_or_ge m (size t) with hm2 | hm2
    swap
    · obtain ⟨i, hi, rfl⟩ : ∃ i, i < 2 ^ D ∧ m = size t + i :=
        ⟨m - size t, by omega, by omega⟩
      rw [(splitU_new t n i w hi).2.2.2] at hfc
      cases hfc
    by_cases hmn : m = n
    · subst hmn
      rw [splitU_children_self t m w hm2] at hfc
      cases hfc
      refine ⟨by omega, by omega, ?_⟩
      intro i hi
      refine ⟨(splitU_new t m i w hi).2.2.1, ?_, ?_⟩
      · rw [(splitU_new t m i w hi).1, hmod, (splitU_old t m m w hm2).1]
      · intro j
        rw [((splitU_new t m i w hi).2.1) j, (splitU_old t m m w hm2).2.1 j]
        split
        · exact hcmod i j
        · have hj : D ≤ j := by omega
          have hrow := w.coords_len m hm2
          rw [gc, List.getD_eq_default _ _ (by rw [hrow]; omega)]
          have hcb : childBit i j = 0 := by
            rw [childBit, Nat.div_eq_of_lt (lt_of_lt_of_le hi
              (Nat.pow_le_pow_right (by omega) hj))]
          omega
    · rw [(splitU_old t n m w hm2).2.2.2 hmn] at hfc
      obtain ⟨hfc0, hbnd, hblk⟩ := w.children_block m hm2 fc hfc
      refine ⟨hfc0, by omega, ?_⟩
      intro i hi
      obtain ⟨hpar, hdep, hgcb2⟩ := hblk i hi
      have hci : fc + i < size t := by omega
      refine ⟨?_, ?_, ?_⟩
      · rw [(splitU_old t n (fc + i) w hci).2.2.1, hpar]
      · rw [(splitU_old t n (fc + i) w hci).1, (splitU_old t n m w hm2).1, hdep]
      · intro j
        rw [(splitU_old t n (fc + i) w hci).2.1 j, (splitU_old t n m w hm2).2.1 j,
          hgcb2 j]
  · -- every non-root node lies in a block
    intro m h0 hm
    rw [hsz] at hm
    rcases Nat.lt_or_ge m (size t) with hm2 | hm2
    · obtain ⟨p, fc, i, hp, hfc, hi, rfl⟩ := w.parent_block m h0 hm2
      have hpn : p ≠ n := by
        intro hpn
        subst hpn
        rw [(isLeaf_iff_none t p).mp hleaf] at hfc
        cases hfc
      exact ⟨p, fc, i, by omega, by rw [(splitU_old t n p w hp).2.2.2 hpn]; exact hfc,
        hi, rfl⟩
    · obtain ⟨i, hi, rfl⟩ : ∃ i, i < 2 ^ D ∧ m = size t + i :=
        ⟨m - size t, by omega, by omega⟩
      exact ⟨n, size t, i, by omega, splitU_children_self t n w hn, hi, rfl⟩
  · -- sides rows have length D
    intro d hdl
    rw [splitU_sides] at hdl ⊢
    by_cases hc : nodeDepth t n + 1 = t.sides.length
    · rw [if_pos hc] at hdl ⊢
      simp only [List.length_append, List.length_cons, List.length_nil] at hdl
      rcases Nat.lt_or_ge d t.sides.length with hd2 | hd2
      · rw [List.getD_append _ _ _ _ (by omega)]
        exact w.sides_row_len d hd2
      · have hde : d = t.sides.length := by omega
        subst hde
        rw [List.getD_append_right _ _ _ _ (by omega), Nat.sub_self,
          List.getD_cons_zero, List.length_map, getLast?_getD_eq_getD,
          w.sides_row_len (t.sides.length - 1) (by omega)]
    · rw [if_neg hc] at hdl ⊢
      exact w.sides_row_len d hdl
  · -- sides values
    intro d hdl i hi
    rw [sideAt, splitU_rootMin, splitU_rootMax, splitU_sides] at *
    by_cases hc : nodeDepth t n + 1 = t.sides.length
    · rw [if_pos hc] at hdl ⊢
      simp only [List.length_append, List.length_cons, List.length_nil] at hdl
      rcases Nat.lt_or_ge d t.sides.length with hd2 | hd2
      · rw [List.getD_append _ _ _ _ (by omega)]
        have := w.sides_val d hd2 i hi
        rw [sideAt] at this
        exact this
      · have hde : d = t.sides.length := by omega
        subst hde
        rw [List.getD_append_right _ _ _ _ (by omega), Nat.sub_self,
          List.getD_cons_zero, getLast?_getD_eq_getD]
        have hrl := w.sides_row_len (t.sides.length - 1) (by omega)
        rw [List.getD_eq_getElem _ _ (by rw [List.length_map, hrl]; exact hi),
          List.getElem_map]
        have hv := w.sides_val (t.sides.length - 1) (by omega) i hi
        rw [sideAt, List.getD_eq_getElem _ _ (by rw [hrl]; exact hi)] at hv
        rw [hv, qdiv_eq, div_div, ← pow_succ]
        congr 2
        omega
    · rw [if_neg hc] at hdl ⊢
      have := w.sides_val d hdl i hi
      rw [sideAt] at this
      exact this

/-! ## Geometry of well-formed trees -/

theorem toInt32_of_lt (x : Nat) (h : x < 2 ^ 31) : toInt32 x = (x : Int) := by
  have h1 : (0:Int) ≤ (x:Int) := Int.ofNat_nonneg x
  have h2 : (x:Int) < 2 ^ 32 := by exact_mod_cast (by omega : x < 2 ^ 32)
  rw [toInt32, if_pos (by omega : x % 2 ^ 32 < 2 ^ 31)]
  exact Int.emod_eq_of_lt h1 h2

/-- Evaluation of the min corner of the box of a node whose coordinates fit
the `int` conversion (depth at most 31). -/
theorem bboxMin_eval {t : Orthtree D} (w : WF t) {m : Nat} (hm : m < size t)
    {i : Nat} (hi : i < D) (h31 : t.sides.length ≤ 32) :
    bboxMin t m i = t.rootMin.getD i 0 + (gc t m i : ℚ) *
      ((t.rootMax.getD i 0 - t.rootMin.getD i 0) / 2 ^ nodeDepth t m) := by
  have hlt := w.gc_lt m hm i
  have hdl := w.depth_lt m hm
  have hcast : toInt32 (gc t m i) = (gc t m i : Int) := toInt32_of_lt _ (by
    calc gc t m i < 2 ^ nodeDepth t m := hlt
    _ ≤ 2 ^ 31 := Nat.pow_le_pow_right (by omega) (by omega))
  rw [bboxMin, qadd_eq, qmul_eq, qofInt_eq, hcast, w.sides_val _ hdl i hi]
  push_cast
  ring

/-- Evaluation of the max corner: the boundary cell is snapped to the root
max corner, any other cell gets the plain formula. -/
theorem bboxMax_eval {t : Orthtree D} (w : WF t) {m : Nat} (hm : m < size t)
    {i : Nat} (hi : i < D) (h31 : t.sides.length ≤ 32) :
    bboxMax t m i = if gc t m i = 2 ^ nodeDepth t m - 1 then t.rootMax.getD i 0
      else t.rootMin.getD i 0 + ((gc t m i : ℚ) + 1) *
        ((t.rootMax.getD i 0 - t.rootMin.getD i 0) / 2 ^ nodeDepth t m) := by
  have hlt := w.gc_lt m hm i
  have hdl := w.depth_lt m hm
  by_cases hs : gc t m i = 2 ^ nodeDepth t m - 1
  · rw [bboxMax, if_pos hs, if_pos hs]
  · rw [bboxMax, if_neg hs, if_neg hs]
    have hp : (0:Nat) < 2 ^ nodeDepth t m := Nat.two_pow_pos _
    have hlt31 : gc t m i + 1 < 2 ^ 31 := by
      have h2 : (2:Nat) ^ nodeDepth t m ≤ 2 ^ 31 := Nat.pow_le_pow_right (by omega) (by omega)
      omega
    have hcast : toInt32 ((gc t m i + 1) % 2 ^ 32)
        = ((gc t m i : Int) + 1) := by
      rw [Nat.mod_eq_of_lt (by omega), toInt32_of_lt _ hlt31]
      push_cast
      ring
    rw [qadd_eq, qmul_eq, qofInt_eq, hcast, w.sides_val _ hdl i hi]
    push_cast
    ring

/-- Evaluation of a barycenter coordinate for a node of depth at most 30. -/
theorem barycenter_eval {t : Orthtree D} (w : WF t) {m : Nat} (hm : m < size t)
    {i : Nat} (hi : i < D) (hd30 : nodeDepth t m ≤ 30) :
    barycenter t m i = t.rootMin.getD i 0 + (2 * (gc t m i : ℚ) + 1) *
      ((t.rootMax.getD i 0 - t.rootMin.getD i 0) / 2 ^ (nodeDepth t m + 1)) := by
  have hlt := w.gc_lt m hm i
  have hdl := w.depth_lt m hm
  have hlt31 : 2 * gc t m i + 1 < 2 ^ 31 := by
    have h2 : (2:Nat) ^ nodeDepth t m ≤ 2 ^ 30 := Nat.pow_le_pow_right (by omega) hd30
    have h3 : (2:Nat) ^ 30 * 2 ≤ 2 ^ 31 := by norm_num
    omega
  have hcast : toInt32 ((2 * gc t m i + 1) % 2 ^ 32) = (2 * (gc t m i : Int) + 1) := by
    rw [Nat.mod_eq_of_lt (by omega), toInt32_of_lt _ hlt31]
    push_cast
    ring
  rw [barycenter, qadd_eq, qmul_eq, qofInt_eq, hcast, qdiv_eq, w.sides_val _ hdl i hi]
  have h2 : ((2:ℚ)) ^ (nodeDepth t m + 1) = 2 ^ nodeDepth t m * 2 := by
    rw [pow_succ]
  rw [h2]
  push_cast
  ring

theorem locateAux_succ (t : Orthtree D) (p : List ℚ) (f n : Nat) :
    locateAux t p (f + 1) n = if isLeaf t n then n
      else locateAux t p f (child t n (((List.range D).map (fun i =>
        (if locateHalfspace (barycenter t n i) (p.getD i 0) then 1 else 0)
          * 2 ^ i)).sum) ) := rfl

/-- The locate descent invariant: starting from a node whose box contains
the point, the walk ends at a leaf whose box contains the point, provided
the tree depth is at most 31 (so no `int` conversion truncates). -/
theorem locateAux_main {t : Orthtree D} (w : WF t) (h31 : t.sides.length ≤ 32)
    (p : List ℚ) :
    ∀ f cur, cur < size t → t.sides.length ≤ nodeDepth t cur + f + 1 →
      (∀ i, i < D → bboxMin t cur i ≤ p.getD i 0 ∧ p.getD i 0 ≤ bboxMax t cur i) →
      isLeaf t (locateAux t p f cur) = true ∧
      locateAux t p f cur < size t ∧
      (∀ i, i < D → bboxMin t (locateAux t p f cur) i ≤ p.getD i 0 ∧
        p.getD i 0 ≤ bboxMax t (locateAux t p f cur) i) := by
  intro f
  induction f with
  | zero =>
    intro cur hcur hfuel hinv
    rw [locateAux]
    refine ⟨?_, hcur, hinv⟩
    cases hl : isLeaf t cur
    · -- an internal node would have a child of depth beyond the sides table
      exfalso
      obtain ⟨hcs, -, hcd, -⟩ := w.child_facts hcur hl (Nat.two_pow_pos D)
      have := w.depth_lt _ hcs
      omega
    · rfl
  | succ f ih =>
    intro cur hcur hfuel hinv
    rw [locateAux_succ]
    by_cases hl : isLeaf t cur = true
    case pos =>
      rw [if_pos hl]
      exact ⟨hl, hcur, hinv⟩
    case neg =>
      rw [if_neg hl]
      have hl2 : isLeaf t cur = false := by
        cases hx : isLeaf t cur
        · rfl
        · exact absurd hx hl
      set lc := ((List.range D).map (fun i =>
        (if locateHalfspace (barycenter t cur i) (p.getD i 0) then 1 else 0)
          * 2 ^ i)).sum with hlc
      have hlcb : lc = bitsum (fun i =>
          if locateHalfspace (barycenter t cur i) (p.getD i 0) then 1 else 0) D := rfl
      have hlclt : lc < 2 ^ D := by
        rw [hlcb]
        exact bitsum_lt _ D (fun j => by split <;> omega)
      have hlcbit : ∀ i, i < D → childBit lc i
          = (if locateHalfspace (barycenter t cur i) (p.getD i 0) then 1 else 0) := by
        intro i hi
        rw [hlcb, childBit]
        exact bitsum_bit _ D i (fun j => by split <;> omega) hi
      obtain ⟨hcs, -, hcd, -, -, -, hcgc⟩ := w.child_facts hcur hl2 hlclt
      have hd30 : nodeDepth t cur ≤ 30 := by
        have := w.depth_lt _ hcs
        omega
      refine ih (child t cur lc) hcs (by omega) ?_
      -- the chosen child's box still contains the point
      intro i hi
      obtain ⟨hlo, hhi⟩ := hinv i hi
      have hg := w.gc_lt cur hcur i
      have hbary := barycenter_eval w hcur hi hd30
      have hminC := bboxMin_eval w hcs hi h31
      have hmaxC := bboxMax_eval w hcs hi h31
      have hminP := bboxMin_eval w hcur hi h31
      have hmaxP := bboxMax_eval w hcur hi h31
      have hgc := hcgc i
      have hdc : nodeDepth t (child t cur lc) = nodeDepth t cur + 1 := hcd
      have hpowN : (2:Nat) ^ (nodeDepth t cur + 1) = 2 * 2 ^ nodeDepth t cur := by
        rw [pow_succ]
        ring
      have hpowQ : ((2:ℚ)) ^ (nodeDepth t cur + 1) = 2 ^ nodeDepth t cur * 2 := by
        rw [pow_succ]
      have hp2 : ((2:ℚ)) ^ nodeDepth t cur ≠ 0 := by positivity
      cases hpred : locateHalfspace (barycenter t cur i) (p.getD i 0) with
      | false =>
        have hbitv : childBit lc i = 0 := by rw [hlcbit i hi, hpred]; rfl
        have hple : p.getD i 0 ≤ barycenter t cur i := by
          rw [← not_lt]
          intro hcon
          have hq := (qlt_iff (barycenter t cur i) (p.getD i 0)).mpr hcon
          rw [locateHalfspace] at hpred
          rw [hpred] at hq
          cases hq
        have hg2 : gc t (child t cur lc) i = 2 * gc t cur i := by
          rw [hgc, hbitv]; omega
        have hnot : ¬ (gc t (child t cur lc) i
            = 2 ^ nodeDepth t (child t cur lc) - 1) := by
          rw [hg2, hdc]
          omega
        constructor
        · have heq : bboxMin t (child t cur lc) i = bboxMin t cur i := by
            rw [hminC, hminP, hg2, hdc]
            push_cast
            rw [hpowQ]
            field_simp
            ring
          rw [heq]
          exact hlo
        · have heq : bboxMax t (child t cur lc) i = barycenter t cur i := by
            rw [hmaxC, if_neg hnot, hbary, hg2, hdc]
            push_cast
            ring
          rw [heq]
          exact hple
      | true =>
        have hbitv : childBit lc i = 1 := by rw [hlcbit i hi, hpred]; rfl
        have hplt : barycenter t cur i < p.getD i 0 := by
          exact (qlt_iff (barycenter t cur i) (p.getD i 0)).mp (by
            rw [locateHalfspace] at hpred
            exact hpred)
        have hg2 : gc t (child t cur lc) i = 2 * gc t cur i + 1 := by
          rw [hgc, hbitv]
        constructor
        · have heq : bboxMin t (child t cur lc) i = barycenter t cur i := by
            rw [hminC, hbary, hg2, hdc]
            push_cast
            ring
          rw [heq]
          exact le_of_lt hplt
        · by_cases hgs : gc t cur i = 2 ^ nodeDepth t cur - 1
          · have hsnap : gc t (child t cur lc) i
                = 2 ^ nodeDepth t (child t cur lc) - 1 := by
              rw [hg2, hdc, hgs]
              omega
            have heq : bboxMax t (child t cur lc) i = t.rootMax.getD i 0 := by
              rw [hmaxC, if_pos hsnap]
            have heqP : bboxMax t cur i = t.rootMax.getD i 0 := by
              rw [hmaxP, if_pos hgs]
            rw [heq, ← heqP]
            exact hhi
          · have hnot : ¬ (gc t (child t cur lc) i
                = 2 ^ nodeDepth t (child t cur lc) - 1) := by
              rw [hg2, hdc]
              have h0 : (0:Nat) < 2 ^ nodeDepth t cur := Nat.two_pow_pos _
              omega
            have heq : bboxMax t (child t cur lc) i = bboxMax t cur i := by
              rw [hmaxC, if_neg hnot, hmaxP, if_neg hgs, hg2, hdc]
              push_cast
              rw [hpowQ]
              field_simp
              ring
            rw [heq]
            exact hhi

/-! ## The claims -/

/-- A three-node unit-interval tree for `D = 1`: the root split once. -/
def t1s : Orthtree 1 := splitU (initialTree 1 [0] [1]) 0

theorem wf_t1s : WF t1s :=
  wf_splitU (wf_initial 1 Nat.one_pos [0] [1]) (by decide) (by decide) (by decide)

/-- **C5** (corrected: the coordinates are stored in `uint32`, so the
parent-child relation holds in the code's wraparound semantics — and as the
exact equation only while `2 * gc(parent) + bit` fits in 32 bits; at depth
33 the exact equation fails).  A split stores, for its `i`-th fresh child,
the value `(2 * gc n j + bit j i) % 2^32` on every axis `j < D` (and `0`
beyond) — exactly `2 * gc n j + bit j i` whenever that value fits in 32
bits — sets the child's parent pointer to `n`, and the child's local
coordinate value is the `D`-bit representation of `i`; the split leaves the
coordinates and parent pointers of every existing node unchanged, and nodes
are created by `split` alone. -/
theorem C5_split_coordinate_store {t : Orthtree D} (hD : 0 < D)
    (hc : t.coords.length = size t) (hp : t.parents.length = size t)
    (hch : t.children.length = size t) {n : Nat} (hn : n < size t) :
    (∀ i, i < 2 ^ D →
      (splitU t n).parents.getD (child (splitU t n) n i) none = some n ∧
      localsVal (splitU t n) (child (splitU t n) n i) = i ∧
      (∀ j, gc (splitU t n) (child (splitU t n) n i) j
        = if j < D then (2 * gc t n j + childBit i j) % 2 ^ 32 else 0) ∧
      (∀ j, j < D → 2 * gc t n j + childBit i j < 2 ^ 32 →
        gc (splitU t n) (child (splitU t n) n i) j
          = 2 * gc t n j + childBit i j)) ∧
    (∀ m, m < size t →
      (∀ j, gc (splitU t n) m j = gc t m j) ∧
      (splitU t n).parents.getD m none = t.parents.getD m none) := by
  have hdeg : degreeVal D = 2 ^ D := degreeVal_eq D hD
  have hfc : (splitU t n).children.getD n none = some (size t) := by
    rw [splitU_children, List.getD_append _ _ _ _
      (by rw [List.length_set, hch]; exact hn),
      getD_set_self _ _ _ _ (by rw [hch]; exact hn)]
  have hchild : ∀ i, child (splitU t n) n i = size t + i := by
    intro i
    rw [child, hfc, Option.getD_some]
  have hgcnew : ∀ i, i < 2 ^ D → ∀ j,
      gc (splitU t n) (size t + i) j
        = if j < D then (2 * gc t n j + childBit i j) % 2 ^ 32 else 0 := by
    intro i hi j
    rw [gc, splitU_coords, List.getD_append_right _ _ _ _ (by rw [hc]; omega),
      hc, Nat.add_sub_cancel_left, getD_map_range _ _ _ _ (by omega)]
    rcases Nat.lt_or_ge j D with hj | hj
    · rw [if_pos hj, getD_map_range _ _ _ _ hj]
    · rw [if_neg (by omega), getD_map_range_ge _ _ _ _ (by simpa using hj)]
  refine ⟨fun i hi => ?_, fun m hm => ?_⟩
  · refine ⟨?_, ?_, ?_, ?_⟩
    · rw [hchild i, splitU_parents,
        List.getD_append_right _ _ _ _ (by rw [hp]; omega), hp,
        Nat.add_sub_cancel_left, getD_map_range _ _ _ _ (by omega)]
    · rw [hchild i, localsVal_eq_bitsum]
      have he : (fun j => gc (splitU t n) (size t + i) j % 2) = childBit i := by
        funext j
        rw [hgcnew i hi j]
        rcases Nat.lt_or_ge j D with hj | hj
        · rw [if_pos hj, Nat.mod_mod_of_dvd _ (by norm_num)]
          have hb := childBit_le i j
          omega
        · rw [if_neg (by omega)]
          have hz : childBit i j = 0 := by
            rw [childBit, Nat.div_eq_of_lt
              (lt_of_lt_of_le hi (Nat.pow_le_pow_right (by omega) hj))]
          rw [hz]
      rw [he, bitsum_reconstruct i D hi]
    · intro j
      rw [hchild i]
      exact hgcnew i hi j
    · intro j hj hfit
      rw [hchild i, hgcnew i hi j, if_pos hj, Nat.mod_eq_of_lt hfit]
  · refine ⟨?_, ?_⟩
    · intro j
      rw [gc, splitU_coords, List.getD_append _ _ _ _ (by rw [hc]; omega), gc]
    · rw [splitU_parents, List.getD_append _ _ _ _ (by rw [hp]; omega)]

theorem C5_split_coordinate_store_witness :
    (∀ i, i < 2 ^ 1 →
      (splitU t1s 1).parents.getD (child (splitU t1s 1) 1 i) none = some 1 ∧
      localsVal (splitU t1s 1) (child (splitU t1s 1) 1 i) = i ∧
      (∀ j, gc (splitU t1s 1) (child (splitU t1s 1) 1 i) j
        = if j < 1 then (2 * gc t1s 1 j + childBit i j) % 2 ^ 32 else 0) ∧
      (∀ j, j < 1 → 2 * gc t1s 1 j + childBit i j < 2 ^ 32 →
        gc (splitU t1s 1) (child (splitU t1s 1) 1 i) j
          = 2 * gc t1s 1 j + childBit i j)) ∧
    (∀ m, m < size t1s →
      (∀ j, gc (splitU t1s 1) m j = gc t1s m j) ∧
      (splitU t1s 1).parents.getD m none = t1s.parents.getD m none) :=
  C5_split_coordinate_store (by decide) (by decide) (by decide) (by decide)
    (by decide)

/-- **C7** (amended: the tree state is well formed and its depth stays at
most 31, so that the `int(uint32)` conversions of the box code do not turn
negative).  For every node and axis the max corner of its box snaps to the
root box max corner exactly on the outermost cell
(`gc = 2^depth - 1`); any other cell gets
`root_min[i] + (gc + 1) * side_per_depth[depth][i]`, and the min corner is
never snapped: it is always `root_min[i] + gc * side_per_depth[depth][i]`. -/
theorem C7_bbox_max_corner_snapping {t : Orthtree D} (w : WF t) {m i : Nat}
    (hm : m < size t) (hi : i < D) (h31 : t.sides.length ≤ 32) :
    (gc t m i = 2 ^ nodeDepth t m - 1 → bboxMax t m i = t.rootMax.getD i 0) ∧
    (gc t m i ≠ 2 ^ nodeDepth t m - 1 →
      bboxMax t m i = t.rootMin.getD i 0
        + ((gc t m i : ℚ) + 1) * sideAt t (nodeDepth t m) i) ∧
    bboxMin t m i = t.rootMin.getD i 0
      + (gc t m i : ℚ) * sideAt t (nodeDepth t m) i := by
  have hg : gc t m i < 2 ^ nodeDepth t m := w.gc_lt m hm i
  have hdl : nodeDepth t m < t.sides.length := w.depth_lt m hm
  have hpow : (2:Nat) ^ nodeDepth t m ≤ 2 ^ 31 :=
    Nat.pow_le_pow_right (by omega) (by omega)
  refine ⟨fun hs => ?_, fun hs => ?_, ?_⟩
  · rw [bboxMax, if_pos hs]
  · have hp : (0:Nat) < 2 ^ nodeDepth t m := Nat.two_pow_pos _
    have hlt31 : gc t m i + 1 < 2 ^ 31 := by omega
    rw [bboxMax, if_neg hs, Nat.mod_eq_of_lt (by omega), toInt32_of_lt _ hlt31,
      qadd_eq, qmul_eq, qofInt_eq]
    push_cast
    ring
  · have hlt31 : gc t m i < 2 ^ 31 := by omega
    rw [bboxMin, toInt32_of_lt _ hlt31, qadd_eq, qmul_eq, qofInt_eq]
    push_cast
    ring

theorem C7_bbox_max_corner_snapping_witness :
    (gc t1s 1 0 = 2 ^ nodeDepth t1s 1 - 1 → bboxMax t1s 1 0 = t1s.rootMax.getD 0 0) ∧
    (gc t1s 1 0 ≠ 2 ^ nodeDepth t1s 1 - 1 →
      bboxMax t1s 1 0 = t1s.rootMin.getD 0 0
        + ((gc t1s 1 0 : ℚ) + 1) * sideAt t1s (nodeDepth t1s 1) 0) ∧
    bboxMin t1s 1 0 = t1s.rootMin.getD 0 0
      + (gc t1s 1 0 : ℚ) * sideAt t1s (nodeDepth t1s 1) 0 :=
  C7_bbox_max_corner_snapping wf_t1s (by decide) (by decide) (by decide)

/-- **C6** (amended: the tree state is well formed and its depth stays at
most 31, so that no `int(uint32)` conversion in the barycenter computation
turns negative; the half-space predicate of the traits is modelled as the
strict comparison against the barycenter).  For every point within the root
bounding box, `locate` descends by comparing the point to each non-leaf
node's barycenter per axis, ends at a leaf, and the leaf's box contains the
point. -/
theorem C6_locate_returns_containing_leaf {t : Orthtree D} (w : WF t)
    (h31 : t.sides.length ≤ 32) (p : List ℚ)
    (hin : ∀ i, i < D →
      t.rootMin.getD i 0 ≤ p.getD i 0 ∧ p.getD i 0 ≤ t.rootMax.getD i 0) :
    isLeaf t (locate t p) = true ∧
    ∀ i, i < D →
      bboxMin t (locate t p) i ≤ p.getD i 0 ∧
      p.getD i 0 ≤ bboxMax t (locate t p) i := by
  have hroot : ∀ i, i < D →
      bboxMin t 0 i ≤ p.getD i 0 ∧ p.getD i 0 ≤ bboxMax t 0 i := by
    intro i hi
    have h0 : toInt32 (gc t 0 i) = 0 := by
      rw [w.root_gc i]
      rfl
    have hmin : bboxMin t 0 i = t.rootMin.getD i 0 := by
      rw [bboxMin, h0, qadd_eq, qmul_eq, qofInt_eq]
      norm_num
    have hmax : bboxMax t 0 i = t.rootMax.getD i 0 := by
      have hc : gc t 0 i = 2 ^ nodeDepth t 0 - 1 := by
        rw [w.root_gc i, w.root_depth]
        decide
      rw [bboxMax, if_pos hc]
    rw [hmin, hmax]
    exact hin i hi
  have hfuel : t.sides.length ≤ nodeDepth t 0 + size t + 1 := by
    have := w.sides_le
    omega
  have h := locateAux_main w h31 p (size t) 0 w.size_pos hfuel hroot
  exact ⟨h.1, h.2.2⟩

theorem C6_locate_returns_containing_leaf_witness :
    isLeaf t1s (locate t1s [mkRat 1 3]) = true ∧
    ∀ i, i < 1 →
      bboxMin t1s (locate t1s [mkRat 1 3]) i ≤ [mkRat 1 3].getD i 0 ∧
      [mkRat 1 3].getD i 0 ≤ bboxMax t1s (locate t1s [mkRat 1 3]) i :=
  C6_locate_returns_containing_leaf wf_t1s (by decide) [mkRat 1 3] (by decide)

/-- **C10** `deepest_first_child` returns a leaf argument unchanged (the
descent loop exits at once), and on the freshly constructed single-node tree
both the preorder traversal and the leaves traversal yield exactly the
root. -/
theorem C10_leaf_traversal_base_cases {t : Orthtree D} (n : Nat)
    (hl : isLeaf t n = true) (bmin bmax : List ℚ) :
    deepestFirstChild t n = n ∧
    preorderList (initialTree D bmin bmax) = [0] ∧
    leavesList (initialTree D bmin bmax) = [0] := by
  refine ⟨?_, rfl, rfl⟩
  rw [deepestFirstChild]
  cases size t with
  | zero => rfl
  | succ k =>
    show (if isLeaf t n then n else deepestFirstChildAux t k (child t n 0)) = n
    rw [if_pos hl]

theorem C10_leaf_traversal_base_cases_witness :
    deepestFirstChild (initialTree 1 [0] [1]) 0 = 0 ∧
    preorderList (initialTree 1 [0] [1]) = [0] ∧
    leavesList (initialTree 1 [0] [1]) = [0] :=
  C10_leaf_traversal_base_cases 0 (by decide) [0] [1]

/-- **C2** (corrected: the loop of `grade` iterates over the literal
direction values `0, 1, 2, 3, 4, 5` — written for the octree case — and the
`int` loop counter is truncated to the low `D` bits when converted to the
`bitset<D>` argument of `adjacent_node`).  Every value passed does satisfy
`adjacent_node`'s precondition (it is less than `2 D`), and for `D ≤ 3` all
`2 D` directions are covered, but the list always has six entries, so for
`D ≥ 4` the axes beyond the third are never checked. -/
theorem C2_grade_direction_values (D : Nat) (hD : 0 < D) :
    (∀ d ∈ gradeDirections D, d < 2 * D) ∧
    (gradeDirections D).length = 6 ∧
    (D ≤ 3 → ∀ d, d < 2 * D → d ∈ gradeDirections D) := by
  refine ⟨?_, rfl, ?_⟩
  · intro d hd
    rw [gradeDirections] at hd
    simp only [List.mem_map, List.mem_range] at hd
    obtain ⟨k, hk, rfl⟩ := hd
    have h1 : k % 2 ^ D < 2 ^ D := Nat.mod_lt _ (Nat.two_pow_pos D)
    have h2 : k % 2 ^ D ≤ k := Nat.mod_le _ _
    have key : 2 ^ D ≤ 2 * D ∨ 6 ≤ 2 * D := by
      rcases Nat.lt_or_ge D 3 with h3 | h3
      · have hD2 : D = 1 ∨ D = 2 := by omega
        rcases hD2 with rfl | rfl
        · left
          decide
        · left
          decide
      · right
        omega
    omega
  · intro h3
    have hD3 : D = 1 ∨ D = 2 ∨ D = 3 := by omega
    rcases hD3 with rfl | rfl | rfl <;> decide

theorem C2_grade_direction_values_witness :
    (∀ d ∈ gradeDirections 2, d < 2 * 2) ∧
    (gradeDirections 2).length = 6 ∧
    (2 ≤ 3 → ∀ d, d < 2 * 2 → d ∈ gradeDirections 2) :=
  C2_grade_direction_values 2 (by decide)

/-- The spec promises one direction per axis and sign (`2 D` of them); at
`D = 4` the hard-coded list has six entries and the two directions of axis
`3` are never produced. -/
theorem C2_counterexample :
    (gradeDirections 4).length ≠ 2 * 4 ∧
    6 ∉ gradeDirections 4 ∧ 7 ∉ gradeDirections 4 := by decide


/-! ## Concrete runs -/

/-- A split predicate that asks to split every node of depth `0`: true on
the root of any tree, also after the root has been split. -/
def c1pred : Nat → Orthtree 1 → Bool := fun n t => decide (nodeDepth t n < 1)

/-- **C1** `refine` checks only the predicate, not `is_leaf`, before calling
`split` on a dequeued node.  The first run on the fresh tree splits the root
and returns normally; the second run with the same predicate dequeues the
root again, finds the predicate true, and calls `split` on the non-leaf
root, tripping `split`'s `CGAL_precondition (is_leaf(n))`. -/
theorem C1_refine_splits_non_leaf :
    refine c1pred 8 (initialTree 1 [0] [1]) = RunResult.ok t1s ∧
    refine c1pred 8 t1s = RunResult.violation := by decide

/-- A `D = 4` tree of 49 nodes: the root split, then its child `0`
(node `1`), then that child's child `15` (node `32`, the inner corner cell),
leaving leaves at depths `1`, `2` and `3`. -/
def tD4 : Orthtree 4 :=
  splitU (splitU (splitU (initialTree 4 [0, 0, 0, 0] [1, 1, 1, 1]) 0) 1) 32

/-- After `grade` terminates on `tD4`, node `48` (a leaf at depth `3`) still
has a leaf neighbor two levels shallower in direction `7` (axis `3`,
positive sign): the hard-coded six-direction loop never balances axis `3`. -/
def c4check : Bool :=
  match grade 400 tD4 with
  | none => false
  | some t =>
    match adjacentNode t 48 7 with
    | none => false
    | some b =>
      isLeaf t 48 && isLeaf t b && decide (nodeDepth t 48 - nodeDepth t b > 1)

set_option maxRecDepth 1000000 in
set_option maxHeartbeats 8000000 in
/-- **C4** After `grade()` terminates on a `D = 4` tree, a pair of adjacent
leaves with depth difference above one remains: the loop iterates over the
literal directions `0..5` only, so axis `3` is never balanced. -/
theorem C4_grade_leaves_adjacent_imbalance : c4check = true := by decide

/-- **C8** On the single-node tree, `first_child_at_depth(root, 1)` finds
nothing and the tree stores no node of depth `1`; the `Level_traversal`
constructor nonetheless dereferences the returned optional unconditionally
(`m_index(*orthtree.first_child_at_depth(orthtree.root(), depth))`), instead
of yielding the promised empty sequence. -/
theorem C8_level_traversal_empty_level :
    firstChildAtDepth (initialTree 1 [0] [1]) 0 1 = none ∧
    (∀ n, n < size (initialTree 1 [0] [1]) →
      nodeDepth (initialTree 1 [0] [1]) n ≠ 1) := by decide

/-- Split the tracked node of a `D = 1` tree (with `split`'s precondition
checked) and move the tracker to its child `b`. -/
def chainStep (b : Nat) (s : Option (Orthtree 1 × Nat)) :
    Option (Orthtree 1 × Nat) :=
  match s with
  | none => none
  | some (t, cur) =>
    match splitNode t cur with
    | none => none
    | some t2 => some (t2, child t2 cur b)

/-- Split along a path from the root: at each step split the tracked node
and descend into the child selected by the next bit. -/
def pathChain (bits : List Nat) : Option (Orthtree 1 × Nat) :=
  bits.foldl (fun s b => chainStep b s) (some (initialTree 1 [0] [1], 0))

/-- After 33 splits along the right edge the stored `uint32` coordinate of
the depth-33 tracked node has wrapped: it is `2^32 - 1` while the exact
value `2 * gc(parent) + bit` demanded by the claim is `2^33 - 1`. -/
def c5check : Bool :=
  match pathChain (List.replicate 33 1) with
  | none => false
  | some s =>
    decide (localsVal s.1 s.2 = 1)
      && decide (gc s.1 s.2 0 = 2 ^ 32 - 1)
      && decide (2 * gc s.1 (parentIdx s.1 s.2) 0 + childBit (localsVal s.1 s.2) 0
            = 2 ^ 33 - 1)
      && decide (gc s.1 s.2 0
            ≠ 2 * gc s.1 (parentIdx s.1 s.2) 0 + childBit (localsVal s.1 s.2) 0)

set_option maxRecDepth 1000000 in
set_option maxHeartbeats 8000000 in
/-- The exact parent-child coordinate equation of the claim fails on a
reachable tree: the `uint32` store truncates at depth 33. -/
theorem C5_counterexample : c5check = true := by decide

/-- A point of the unit interval: `1/2 + 1/2^33`, just right of the
barycenter of the root. -/
def c6point : ℚ := mkRat 4294967297 8589934592

/-- A unit-interval tree 32 levels deep along the path right-then-left:
its depth-32 leaf containing `c6point` has `2 * gc + 1 = 2^33 + 1`, whose
`int` conversion is negative, so the stored barycenter of its parent is far
left of the box and `locate` descends to the wrong child.  The check: the
point is inside the root box, `locate` returns a leaf, and the leaf's box
does not contain the point. -/
def c6check : Bool :=
  match pathChain (1 :: List.replicate 31 0) with
  | none => false
  | some s =>
    let t := s.1
    let l := locate t [c6point]
    isLeaf t l
      && !(decide (bboxMin t l 0 ≤ c6point) && decide (c6point ≤ bboxMax t l 0))
      && decide (t.rootMin.getD 0 0 ≤ c6point)
      && decide (c6point ≤ t.rootMax.getD 0 0)

set_option maxRecDepth 1000000 in
set_option maxHeartbeats 8000000 in
/-- The point `1/2 + 1/2^33` lies in the root box `[0, 1]` but outside the
box of the leaf `locate` returns, on the depth-32 tree. -/
theorem C6_counterexample : c6check = true := by decide

/-- A unit-interval tree with a node at depth `32` (path: right 31 times,
then the left child): its coordinate is `2^32 - 2`, not the boundary cell
`2^32 - 1`, yet its box max corner is neither
`min + (gc + 1) * side_per_depth[32]` (the claimed interior formula) nor the
root max corner: `int(gc + 1)` is the negative value `-1`. -/
def c7check : Bool :=
  match pathChain (List.replicate 31 1 ++ [0]) with
  | none => false
  | some s =>
    let t := s.1
    let n := s.2
    decide (gc t n 0 ≠ 2 ^ nodeDepth t n - 1)
      && decide (bboxMax t n 0
        ≠ qadd (t.rootMin.getD 0 0)
            (qmul (qofInt ((gc t n 0 : Int) + 1)) (sideAt t (nodeDepth t n) 0)))
      && decide (bboxMax t n 0 ≠ t.rootMax.getD 0 0)

set_option maxRecDepth 1000000 in
set_option maxHeartbeats 8000000 in
/-- At depth `32` the interior max-corner formula of the claim fails: the
`uint32 → int` conversion of `gc + 1` is negative. -/
theorem C7_counterexample : c7check = true := by decide


end OrthtreeSpec
